import Mathlib

/-!
# ZendyApp task list: a shallow embedding of `src/App.jsx`

The task-list handlers of the `App` component (`handleSubmit`,
`toggleTaskComplete`, `deleteTask`, `handleDrop`) and the derived values
`completedTasks` / `completionPercentage` are translated to functions on an
explicit state.  A handler that calls `setTasks(v)` is modelled by returning
`v`; a handler that returns without calling `setTasks` returns the list it
was given.
-/

namespace ZendyApp

/-! ## Data model -/

/-- A task object as built in `handleSubmit` (lines 58-64): `id` is a JS
number holding an integer (`Date.now()`), `text`, `type` and `createdAt` are
strings, `completed` is a boolean. -/
structure Task where
  id : Int
  text : String
  type : String
  completed : Bool
  createdAt : String
  deriving DecidableEq, Repr

/-- An exception thrown by a handler, identified by its `name`. -/
structure JsError where
  name : String
  deriving DecidableEq, Repr

/-- The React state read and written by `handleSubmit`: `tasks`, `taskInput`
and `taskType` (lines 12-17). -/
structure AppState where
  tasks : List Task
  taskInput : String
  taskType : String
  deriving DecidableEq, Repr

/-! ## JavaScript primitives used by the handlers -/

/-- The code points removed by `String.prototype.trim`: ECMAScript
`WhiteSpace` (TAB, VT, FF, SP, NBSP, ZWNBSP and the category Zs) and
`LineTerminator` (LF, CR, LS, PS). -/
def isJsWhiteSpace (c : Char) : Bool :=
  let n := c.toNat
  n = 0x09 || n = 0x0A || n = 0x0B || n = 0x0C || n = 0x0D || n = 0x20 ||
  n = 0xA0 || n = 0x1680 || (0x2000 ≤ n && n ≤ 0x200A) ||
  n = 0x2028 || n = 0x2029 || n = 0x202F || n = 0x205F || n = 0x3000 ||
  n = 0xFEFF

/-- `String.prototype.trim`: drop white space from both ends. -/
def jsTrim (s : String) : String :=
  ⟨((s.data.dropWhile isJsWhiteSpace).reverse.dropWhile isJsWhiteSpace).reverse⟩

/-- Truthiness of a JS string: every string but the empty one. -/
def strTruthy (s : String) : Bool :=
  !s.data.isEmpty

/-- `Array.prototype.findIndex`: the index of the first element satisfying
`p`; `none` stands for the result `-1`. -/
def findIndex {α : Type} (p : α → Bool) : List α → Option Nat
  | [] => none
  | x :: xs => if p x then some 0 else (findIndex p xs).map (· + 1)

/-- `arr.splice(start, 1)` for `0 ≤ start`: the removed element (`none` when
`start` is past the end, where JS yields an empty array) and the remaining
array. -/
def spliceRemove {α : Type} (arr : List α) (start : Nat) : Option α × List α :=
  (arr.get? start, arr.eraseIdx start)

/-- `arr.splice(start, 0, item)` for `0 ≤ start`: insert `item` at `start`,
clamped to the length of the array. -/
def spliceInsert {α : Type} (arr : List α) (start : Nat) (item : α) : List α :=
  arr.take (min start arr.length) ++ item :: arr.drop (min start arr.length)

/-- Division of two non-negative integers as JS numbers (IEEE 754 doubles).
`none` stands for the non-finite results (`0/0 = NaN`, `x/0 = Infinity`).  A
finite result is the exact quotient rounded to a double: `rnd` is the
rounding of the host (round to nearest, ties to even), taken as a parameter,
so `1 / 3` is `rnd (1/3)` and not the rational `1/3`.  The operands are array
lengths, which are doubles already. -/
def jsDiv (rnd : ℚ → ℚ) (a b : Nat) : Option ℚ :=
  if b = 0 then none else some (rnd ((a : ℚ) / (b : ℚ)))

/-- Multiplication of a finite JS number by a non-negative integer constant:
the exact product rounded to a double by `rnd`. -/
def jsMul (rnd : ℚ → ℚ) (x : ℚ) (k : Nat) : ℚ :=
  rnd (x * (k : ℚ))

/-! ## Derived state (lines 32-33) -/

/-- `tasks.filter(task => task.completed).length`. -/
def completedTasks (tasks : List Task) : Nat :=
  (tasks.filter (fun task => task.completed)).length

/-- `tasks.length > 0 ? (completedTasks / tasks.length) * 100 : 0`, with the
rounding `rnd` of the host's double arithmetic; `none` would be a non-finite
number. -/
def completionPercentage (rnd : ℚ → ℚ) (tasks : List Task) : Option ℚ :=
  if tasks.length > 0 then
    (jsDiv rnd (completedTasks tasks) tasks.length).map (fun q => jsMul rnd q 100)
  else some 0

/-- The pair rendered as `{completedTasks} / {tasks.length}` (line 381). -/
def completionStats (tasks : List Task) : Nat × Nat :=
  (completedTasks tasks, tasks.length)

/-! ## Handlers -/

/-- `handleSubmit` (lines 54-69).  `now` is the value of `Date.now()` and
`iso` the value of `new Date().toISOString()` at the call.  The handler has
no `throw`; it completes normally on every input. -/
def handleSubmit (s : AppState) (now : Int) (iso : String) : Except JsError AppState :=
  if strTruthy (jsTrim s.taskInput) then
    let newTask : Task :=
      { id := now
        text := jsTrim s.taskInput
        type := s.taskType
        completed := false
        createdAt := iso }
    .ok { s with tasks := s.tasks ++ [newTask], taskInput := "" }
  else
    .ok s

/-- `toggleTaskComplete` (lines 72-76). -/
def toggleTaskComplete (tasks : List Task) (taskId : Int) : Except JsError (List Task) :=
  .ok (tasks.map (fun task =>
    if task.id = taskId then { task with completed := !task.completed } else task))

/-- `deleteTask` (lines 79-81). -/
def deleteTask (tasks : List Task) (taskId : Int) : Except JsError (List Task) :=
  .ok (tasks.filter (fun task => task.id ≠ taskId))

/-- `handleDrop` (lines 235-254).  `draggedTaskId` is the value of
`draggedTaskIdStr ? parseInt(draggedTaskIdStr, 10) : null`: `none` for `null`
and `NaN`, `some d` for the integer `d` that `handleDragStart` wrote as
`taskId.toString()`.  `!draggedTaskId` holds for `null`, `NaN` and `0`.
The branch `(none, _)` is never taken: `findIndex` only returns an index
inside the array (`findIndex_some_split`), so `removed` is always a task. -/
def handleDrop (tasks : List Task) (draggedTaskId : Option Int) (targetTaskId : Int) :
    Except JsError (List Task) :=
  match draggedTaskId with
  | none => .ok tasks
  | some d =>
    if d = 0 ∨ d = targetTaskId then .ok tasks
    else
      match findIndex (fun task => task.id = d) tasks,
            findIndex (fun task => task.id = targetTaskId) tasks with
      | some draggedIndex, some targetIndex =>
        match spliceRemove tasks draggedIndex with
        | (some removed, newTasks) => .ok (spliceInsert newTasks targetIndex removed)
        | (none, _) => .ok tasks
      | _, _ => .ok tasks

/-- The callback that `toggleTaskComplete` passes to `tasks.map` (line 74),
under a name of its own. -/
def flipIf (taskId : Int) (task : Task) : Task :=
  if task.id = taskId then { task with completed := !task.completed } else task

/-- The initial-state function of `tasks` (lines 12-15):
`savedTasks ? JSON.parse(savedTasks) : []`.  `savedTasks` is the value of
`localStorage.getItem('tasks')` (`none` for `null`).  `JSON.parse` is a
built-in of the host, taken as the parameter `jsonParse`: it returns the
parsed value or throws; the value is typed as a task list, a payload that
parses to anything else is outside this model.  The call is not inside a
`try`, so what it throws leaves the function. -/
def loadTasks (jsonParse : String → Except JsError (List Task)) (savedTasks : Option String) :
    Except JsError (List Task) :=
  match savedTasks with
  | none => .ok []
  | some payload => if strTruthy payload then jsonParse payload else .ok []

/-! ## Sample data -/

/-- A task with the given id and label, used in the worked examples. -/
def mkTask (i : Int) (label : String) : Task :=
  { id := i, text := label, type := "study", completed := false, createdAt := "" }

/-- The list `[A, B, C, D]` with ids 1, 2, 3, 4. -/
def abcd : List Task :=
  [mkTask 1 "A", mkTask 2 "B", mkTask 3 "C", mkTask 4 "D"]

/-- The state with an empty list, the text `  Review Calculus ` typed in and
the type `study` selected. -/
def typedState : AppState :=
  { tasks := [], taskInput := "  Review Calculus ", taskType := "study" }

/-- The state with the task list `[A, B, C, D]` and only blanks typed in. -/
def blankState : AppState :=
  { tasks := abcd, taskInput := "   ", taskType := "study" }

/-- A state whose single task has the id `1700000000000`, with the text `B`
typed in. -/
def sameMsState : AppState :=
  { tasks := [mkTask 1700000000000 "A"], taskInput := "B", taskType := "study" }

/-- A parser that accepts the text `[]` alone and rejects every other text
with a `SyntaxError`.  It agrees with `JSON.parse` on `[]` and on every text
that is not JSON, such as `not json`. -/
def parseEmptyArrayOnly (payload : String) : Except JsError (List Task) :=
  if payload = "[]" then .ok [] else .error ⟨"SyntaxError"⟩

/-! ## Lemmas on the primitives -/

theorem findIndex_eq_none {α : Type} (p : α → Bool) (l : List α) :
    findIndex p l = none ↔ ∀ x ∈ l, p x = false := by
  induction l with
  | nil => simp [findIndex]
  | cons x xs ih =>
    by_cases hx : p x = true
    · simp [findIndex, hx]
    · simp only [Bool.not_eq_true] at hx
      simp [findIndex, hx, ih]

theorem findIndex_append_first {α : Type} (p : α → Bool) (pre : List α) (a : α)
    (post : List α) (hpre : ∀ x ∈ pre, p x = false) (ha : p a = true) :
    findIndex p (pre ++ a :: post) = some pre.length := by
  induction pre with
  | nil => simp [findIndex, ha]
  | cons x xs ih =>
    have hx : p x = false := hpre x (List.mem_cons_self x xs)
    have hxs : ∀ y ∈ xs, p y = false := fun y hy => hpre y (List.mem_cons_of_mem x hy)
    simp [findIndex, hx, ih hxs]

theorem findIndex_some_split {α : Type} (p : α → Bool) (l : List α) (i : Nat)
    (h : findIndex p l = some i) :
    ∃ pre a post, l = pre ++ a :: post ∧ pre.length = i ∧ p a = true ∧
      ∀ x ∈ pre, p x = false := by
  induction l generalizing i with
  | nil => simp [findIndex] at h
  | cons x xs ih =>
    by_cases hx : p x = true
    · simp [findIndex, hx] at h
      exact ⟨[], x, xs, by simp, by simp [h], hx, by simp⟩
    · simp only [Bool.not_eq_true] at hx
      cases hj : findIndex p xs with
      | none => simp [findIndex, hx, hj] at h
      | some j =>
      have hji : j + 1 = i := by simpa [findIndex, hx, hj] using h
      obtain ⟨pre, a, post, hl, hlen, ha, hpre⟩ := ih j hj
      refine ⟨x :: pre, a, post, by simp [hl], by simp [hlen, hji], ha, ?_⟩
      intro y hy
      rcases List.mem_cons.mp hy with rfl | hy
      · exact hx
      · exact hpre y hy

theorem spliceRemove_split {α : Type} (pre : List α) (a : α) (post : List α) :
    spliceRemove (pre ++ a :: post) pre.length = (some a, pre ++ post) := by
  have hget : (pre ++ a :: post).get? pre.length = some a := by
    induction pre with
    | nil => rfl
    | cons x xs ih => simpa using ih
  have herase : (pre ++ a :: post).eraseIdx pre.length = pre ++ post := by
    clear hget
    induction pre with
    | nil => rfl
    | cons x xs ih => simpa using ih
  simp only [spliceRemove, hget, herase]

theorem spliceInsert_split {α : Type} (pre post : List α) (item : α) :
    spliceInsert (pre ++ post) pre.length item = pre ++ item :: post := by
  simp [spliceInsert]

/-! ## Lemmas on `handleDrop` -/

/-- Once both indices are found, `handleDrop` removes the dragged task and
inserts it at the target index. -/
theorem handleDrop_found (pre : List Task) (a : Task) (post : List Task) (d t : Int) (j : Nat)
    (hd0 : d ≠ 0) (hdt : d ≠ t) (ha : a.id = d) (hpre : ∀ x ∈ pre, x.id ≠ d)
    (hj : findIndex (fun task => decide (task.id = t)) (pre ++ a :: post) = some j) :
    handleDrop (pre ++ a :: post) (some d) t = .ok (spliceInsert (pre ++ post) j a) := by
  have hi : findIndex (fun task => decide (task.id = d)) (pre ++ a :: post)
      = some pre.length :=
    findIndex_append_first _ pre a post (by simpa using hpre) (by simpa using ha)
  simp only [handleDrop, hd0, hdt, or_self, if_false, hi, hj, spliceRemove_split]

/-- Either `handleDrop` leaves the list as it is, or it removes one task and
inserts it again at some index. -/
theorem handleDrop_shape (tasks : List Task) (dr : Option Int) (t : Int) :
    handleDrop tasks dr t = .ok tasks ∨
    ∃ pre a post j, tasks = pre ++ a :: post ∧ dr = some a.id ∧
      handleDrop tasks dr t = .ok (spliceInsert (pre ++ post) j a) := by
  cases dr with
  | none => left; rfl
  | some d =>
    by_cases hg : d = 0 ∨ d = t
    · left; simp [handleDrop, hg]
    · have hd0 : d ≠ 0 := fun h => hg (Or.inl h)
      have hdt : d ≠ t := fun h => hg (Or.inr h)
      cases hi : findIndex (fun task => decide (task.id = d)) tasks with
      | none => left; simp [handleDrop, hg, hi]
      | some i =>
        cases hj : findIndex (fun task => decide (task.id = t)) tasks with
        | none => left; simp [handleDrop, hg, hi, hj]
        | some j =>
          right
          obtain ⟨pre, a, post, hl, -, ha, hpre⟩ := findIndex_some_split _ tasks i hi
          have ha2 : a.id = d := by simpa using ha
          subst hl
          refine ⟨pre, a, post, j, rfl, by rw [ha2], ?_⟩
          exact handleDrop_found pre a post d t j hd0 hdt ha2 (by simpa using hpre) hj

theorem spliceInsert_perm {α : Type} (l : List α) (j : Nat) (a : α) :
    (spliceInsert l j a).Perm (a :: l) := by
  unfold spliceInsert
  have h := List.take_append_drop (min j l.length) l
  calc l.take (min j l.length) ++ a :: l.drop (min j l.length)
      |>.Perm (a :: (l.take (min j l.length) ++ l.drop (min j l.length))) :=
        List.perm_middle
    _ = a :: l := by rw [h]

/-- The list `handleDrop` produces is a rearrangement of the list it was
given. -/
theorem handleDrop_perm (tasks : List Task) (dr : Option Int) (t : Int) :
    ∃ r, handleDrop tasks dr t = .ok r ∧ r.Perm tasks := by
  rcases handleDrop_shape tasks dr t with h | ⟨pre, a, post, j, hl, -, h⟩
  · exact ⟨tasks, h, List.Perm.refl _⟩
  · refine ⟨_, h, ?_⟩
    subst hl
    exact (spliceInsert_perm (pre ++ post) j a).trans List.perm_middle.symm

/-- Dragged task before the target: it lands right after the target. -/
theorem handleDrop_forward (p : List Task) (a : Task) (m : List Task) (b : Task) (s : List Task)
    (hnd : ((p ++ a :: (m ++ b :: s)).map (fun x => x.id)).Nodup) (hd0 : a.id ≠ 0) :
    handleDrop (p ++ a :: (m ++ b :: s)) (some a.id) b.id = .ok (p ++ (m ++ b :: a :: s)) := by
  rw [List.Nodup, List.pairwise_map] at hnd
  simp only [List.pairwise_append, List.pairwise_cons, List.mem_append, List.mem_cons] at hnd
  obtain ⟨-, ⟨ha, -, -, hm⟩, hp⟩ := hnd
  have hab : a.id ≠ b.id := ha b (Or.inr (Or.inl rfl))
  have hj : findIndex (fun task => decide (task.id = b.id)) (p ++ a :: (m ++ b :: s))
      = some (p ++ a :: m).length := by
    have h := findIndex_append_first (fun task => decide (task.id = b.id)) (p ++ a :: m) b s
      (by
        intro x hx
        simp only [List.mem_append, List.mem_cons] at hx
        rcases hx with hx | rfl | hx
        · simpa using hp x hx b (Or.inr (Or.inr (Or.inl rfl)))
        · simpa using hab
        · simpa using hm x hx b (Or.inl rfl))
      (by simp)
    simpa using h
  rw [handleDrop_found p a (m ++ b :: s) a.id b.id _ hd0 hab rfl
    (fun x hx => hp x hx a (Or.inl rfl)) hj]
  have hsplit := spliceInsert_split (p ++ (m ++ [b])) s a
  simp only [List.length_append, List.length_cons, List.length_nil, List.append_assoc,
    List.singleton_append] at hsplit ⊢
  rw [show p.length + (m.length + 1) = p.length + (m.length + (0 + 1)) by omega, hsplit]

/-- Dragged task after the target: it lands right before the target. -/
theorem handleDrop_backward (p : List Task) (b : Task) (m : List Task) (a : Task) (s : List Task)
    (hnd : ((p ++ b :: (m ++ a :: s)).map (fun x => x.id)).Nodup) (hd0 : a.id ≠ 0) :
    handleDrop (p ++ b :: (m ++ a :: s)) (some a.id) b.id = .ok (p ++ a :: b :: (m ++ s)) := by
  rw [List.Nodup, List.pairwise_map] at hnd
  simp only [List.pairwise_append, List.pairwise_cons, List.mem_append, List.mem_cons] at hnd
  obtain ⟨-, ⟨hb, -, -, hm⟩, hp⟩ := hnd
  have hba : b.id ≠ a.id := hb a (Or.inr (Or.inl rfl))
  have hj : findIndex (fun task => decide (task.id = b.id)) (p ++ b :: (m ++ a :: s))
      = some p.length :=
    findIndex_append_first _ p b (m ++ a :: s)
      (fun x hx => by simpa using hp x hx b (Or.inl rfl)) (by simp)
  have hl : p ++ b :: (m ++ a :: s) = (p ++ b :: m) ++ a :: s := by simp
  have hfound := handleDrop_found (p ++ b :: m) a s a.id b.id p.length hd0 (Ne.symm hba) rfl
    (by
      intro x hx
      simp only [List.mem_append, List.mem_cons] at hx
      rcases hx with hx | rfl | hx
      · exact hp x hx a (Or.inr (Or.inr (Or.inl rfl)))
      · exact hba
      · exact hm x hx a (Or.inl rfl))
    (by rw [← hl]; exact hj)
  rw [hl, hfound]
  have hsplit := spliceInsert_split p (b :: m ++ s) a
  simp only [List.append_assoc, List.cons_append] at hsplit ⊢
  rw [hsplit]

theorem filter_spliceInsert (q : Task → Bool) (l : List Task) (j : Nat) (a : Task)
    (ha : q a = false) : (spliceInsert l j a).filter q = l.filter q := by
  unfold spliceInsert
  rw [List.filter_append, List.filter_cons_of_neg (by simp [ha]), ← List.filter_append,
    List.take_append_drop]

/-! ## Reorder: claims C1, C2, C3 -/

/-- C1 (counterexample): on `[A, B, C, D]`, dropping `A` on `C` gives
`[B, C, A, D]`, not `[B, A, C, D]`: the dragged task is right after the
target, not right before it.  And a dragged task with id `0` is not moved at
all. -/
theorem handleDrop_not_always_before_target :
    handleDrop abcd (some 1) 3 =
      .ok [mkTask 2 "B", mkTask 3 "C", mkTask 1 "A", mkTask 4 "D"] ∧
    handleDrop abcd (some 1) 3 ≠
      .ok [mkTask 2 "B", mkTask 1 "A", mkTask 3 "C", mkTask 4 "D"] ∧
    handleDrop [mkTask 5 "X", mkTask 0 "Z"] (some 0) 5 = .ok [mkTask 5 "X", mkTask 0 "Z"] := by
  refine ⟨rfl, ?_, rfl⟩
  intro h
  have h2 : handleDrop abcd (some 1) 3 =
      .ok [mkTask 2 "B", mkTask 3 "C", mkTask 1 "A", mkTask 4 "D"] := rfl
  rw [h2] at h
  simp [mkTask] at h

/-- C1 (amended): for a task list with pairwise-distinct ids and two distinct
present ids `d ≠ 0` and `t`, `handleDrop` with dragged id `d` and target id
`t` moves the task with id `d` and nothing else: when it was before the
target it ends up immediately after the target, and when it was after the
target it ends up immediately before the target. -/
theorem handleDrop_places_dragged (tasks : List Task) (d t : Int)
    (hnd : (tasks.map (fun x => x.id)).Nodup) (hd0 : d ≠ 0) (hdt : d ≠ t)
    (hd : ∃ x ∈ tasks, x.id = d) (ht : ∃ x ∈ tasks, x.id = t) :
    (∃ p a m b s, tasks = p ++ a :: (m ++ b :: s) ∧ a.id = d ∧ b.id = t ∧
        handleDrop tasks (some d) t = .ok (p ++ (m ++ b :: a :: s))) ∨
    (∃ p b m a s, tasks = p ++ b :: (m ++ a :: s) ∧ a.id = d ∧ b.id = t ∧
        handleDrop tasks (some d) t = .ok (p ++ a :: b :: (m ++ s))) := by
  obtain ⟨a, ha_mem, ha⟩ := hd
  obtain ⟨b, hb_mem, hb⟩ := ht
  obtain ⟨l1, l2, hl⟩ := List.append_of_mem ha_mem
  subst hl
  subst ha
  subst hb
  simp only [List.mem_append, List.mem_cons] at hb_mem
  rcases hb_mem with hb1 | rfl | hb2
  · right
    obtain ⟨p, m, hl1⟩ := List.append_of_mem hb1
    subst hl1
    have hl : (p ++ b :: m) ++ a :: l2 = p ++ b :: (m ++ a :: l2) := by simp
    rw [hl] at hnd ⊢
    exact ⟨p, b, m, a, l2, rfl, rfl, rfl, handleDrop_backward p b m a l2 hnd hd0⟩
  · exact absurd rfl hdt
  · left
    obtain ⟨m, s, hl2⟩ := List.append_of_mem hb2
    subst hl2
    exact ⟨l1, a, m, b, s, rfl, rfl, rfl, handleDrop_forward l1 a m b s hnd hd0⟩

/-- Witness for C1 (amended) on `[A, B, C, D]` with `d = 4`, `t = 1`. -/
theorem handleDrop_places_dragged_witness :
    ((abcd.map (fun x => x.id)).Nodup ∧ (4 : Int) ≠ 0 ∧ (4 : Int) ≠ 1 ∧
      (∃ x ∈ abcd, x.id = 4) ∧ (∃ x ∈ abcd, x.id = 1)) ∧
    ((∃ p a m b s, abcd = p ++ a :: (m ++ b :: s) ∧ a.id = 4 ∧ b.id = 1 ∧
        handleDrop abcd (some 4) 1 = .ok (p ++ (m ++ b :: a :: s))) ∨
    (∃ p b m a s, abcd = p ++ b :: (m ++ a :: s) ∧ a.id = 4 ∧ b.id = 1 ∧
        handleDrop abcd (some 4) 1 = .ok (p ++ a :: b :: (m ++ s)))) :=
  ⟨⟨by decide, by decide, by decide, ⟨mkTask 4 "D", by simp [abcd], rfl⟩,
      ⟨mkTask 1 "A", by simp [abcd], rfl⟩⟩,
    handleDrop_places_dragged abcd 4 1 (by decide) (by decide) (by decide)
      ⟨mkTask 4 "D", by simp [abcd], rfl⟩ ⟨mkTask 1 "A", by simp [abcd], rfl⟩⟩

/-- C2: `handleDrop` returns a permutation of the input of the same length,
and removing the task with id `d` from the result gives the input with the
task with id `d` removed: all other tasks keep their relative order and no
task is altered.  This holds for every task list and every `d` and `t`, so in
particular for a list with pairwise-distinct ids and two distinct present
ids. -/
theorem handleDrop_stable_perm (tasks : List Task) (d t : Int) :
    ∃ r, handleDrop tasks (some d) t = .ok r ∧ r.Perm tasks ∧ r.length = tasks.length ∧
      r.filter (fun x => decide (x.id ≠ d)) = tasks.filter (fun x => decide (x.id ≠ d)) := by
  rcases handleDrop_shape tasks (some d) t with h | ⟨pre, a, post, j, hl, hda, h⟩
  · exact ⟨tasks, h, List.Perm.refl _, rfl, rfl⟩
  · have hperm : (spliceInsert (pre ++ post) j a).Perm tasks := by
      rw [hl]
      exact (spliceInsert_perm (pre ++ post) j a).trans List.perm_middle.symm
    have had : a.id = d := by simpa using hda.symm
    refine ⟨_, h, hperm, hperm.length_eq, ?_⟩
    rw [filter_spliceInsert _ _ _ _ (by simp [had]), hl, List.filter_append,
      List.filter_append, List.filter_cons_of_neg (by simp [had])]

/-- C3: dropping a task on itself, or a drop in which the dragged id or the
target id is not the id of any task, leaves the task list exactly as it was
and completes without an error. -/
theorem handleDrop_noop (tasks : List Task) (d t : Int)
    (h : d = t ∨ (∀ x ∈ tasks, x.id ≠ d) ∨ (∀ x ∈ tasks, x.id ≠ t)) :
    handleDrop tasks (some d) t = .ok tasks := by
  by_cases hg : d = 0 ∨ d = t
  · simp [handleDrop, hg]
  · rcases h with h | h | h
    · exact absurd (Or.inr h) hg
    · have hi : findIndex (fun task => decide (task.id = d)) tasks = none :=
        (findIndex_eq_none _ tasks).mpr (by simpa using h)
      simp [handleDrop, hg, hi]
    · have hj : findIndex (fun task => decide (task.id = t)) tasks = none :=
        (findIndex_eq_none _ tasks).mpr (by simpa using h)
      cases hi : findIndex (fun task => decide (task.id = d)) tasks <;>
        simp [handleDrop, hg, hi, hj]

/-- Witness for C3: on `[A, B, C, D]`, dropping `B` on itself, dropping an
unknown id on `B`, and dropping `B` on an unknown id. -/
theorem handleDrop_noop_witness :
    handleDrop abcd (some 2) 2 = .ok abcd ∧ handleDrop abcd (some 9) 2 = .ok abcd ∧
      handleDrop abcd (some 2) 9 = .ok abcd :=
  ⟨handleDrop_noop abcd 2 2 (Or.inl rfl),
   handleDrop_noop abcd 9 2 (Or.inr (Or.inl (by decide))),
   handleDrop_noop abcd 2 9 (Or.inr (Or.inr (by decide)))⟩

/-! ## Create: claims C4, C5 -/

/-- C4: when the input text is non-empty after trimming, `handleSubmit`
completes with the old list plus exactly one task appended at the end: the
length grows by one, the first `n` tasks are the old list, and the new last
task has `completed = false`, the trimmed input as `text` and the selected
type as `type`. -/
theorem handleSubmit_appends (s : AppState) (now : Int) (iso : String)
    (h : jsTrim s.taskInput ≠ "") :
    ∃ s1 newTask, handleSubmit s now iso = .ok s1 ∧
      s1.tasks = s.tasks ++ [newTask] ∧
      s1.tasks.length = s.tasks.length + 1 ∧
      s1.tasks.take s.tasks.length = s.tasks ∧
      s1.tasks.getLast? = some newTask ∧
      newTask.completed = false ∧
      newTask.text = jsTrim s.taskInput ∧
      newTask.type = s.taskType := by
  have ht : strTruthy (jsTrim s.taskInput) = true := by
    cases hs : jsTrim s.taskInput with
    | mk data =>
      cases data with
      | nil => exact absurd hs h
      | cons c cs => rfl
  refine ⟨_, _, by simp only [handleSubmit, ht, if_true]; rfl, rfl, by simp, by simp,
    by simp, rfl, rfl, rfl⟩

/-- Witness for C4. -/
theorem handleSubmit_appends_witness :
    jsTrim typedState.taskInput = "Review Calculus" ∧
    ∃ s1 newTask, handleSubmit typedState 1700000000000 "2023-11-14T22:13:20.000Z" = .ok s1 ∧
      s1.tasks = typedState.tasks ++ [newTask] ∧
      s1.tasks.length = typedState.tasks.length + 1 ∧
      s1.tasks.take typedState.tasks.length = typedState.tasks ∧
      s1.tasks.getLast? = some newTask ∧
      newTask.completed = false ∧
      newTask.text = jsTrim typedState.taskInput ∧
      newTask.type = typedState.taskType :=
  ⟨by decide, handleSubmit_appends typedState 1700000000000 "2023-11-14T22:13:20.000Z"
    (by decide)⟩

/-- C5 (counterexample): with only blanks typed in, `handleSubmit` does not
fail with any error; it completes normally. -/
theorem handleSubmit_blank_not_error :
    jsTrim blankState.taskInput = "" ∧
    ¬ ∃ e, handleSubmit blankState 1700000000000 "2023-11-14T22:13:20.000Z" = .error e := by
  refine ⟨by decide, ?_⟩
  rintro ⟨e, he⟩
  have h : handleSubmit blankState 1700000000000 "2023-11-14T22:13:20.000Z" = .ok blankState :=
    rfl
  rw [h] at he
  cases he

/-- C5 (amended): when the input text is empty after trimming, `handleSubmit`
is a silent no-op: it completes without an error and leaves the task list
(and the rest of the state) unchanged. -/
theorem handleSubmit_blank_noop (s : AppState) (now : Int) (iso : String)
    (h : jsTrim s.taskInput = "") :
    handleSubmit s now iso = .ok s := by
  have ht : strTruthy (jsTrim s.taskInput) = false := by rw [h]; rfl
  simp [handleSubmit, ht]

/-- Witness for C5 (amended), for the inputs `"   "` and `""`. -/
theorem handleSubmit_blank_noop_witness :
    handleSubmit blankState 5 "" = .ok blankState ∧
    handleSubmit { blankState with taskInput := "" } 5 "" =
      .ok { blankState with taskInput := "" } :=
  ⟨handleSubmit_blank_noop blankState 5 "" (by decide),
   handleSubmit_blank_noop { blankState with taskInput := "" } 5 "" (by decide)⟩

/-! ## Toggle and Delete: claims C6, C7, C8 -/

theorem toggleTaskComplete_eq (tasks : List Task) (taskId : Int) :
    toggleTaskComplete tasks taskId = .ok (tasks.map (flipIf taskId)) := rfl

theorem flipIf_flipIf (taskId : Int) (task : Task) :
    flipIf taskId (flipIf taskId task) = task := by
  by_cases h : task.id = taskId
  · subst h
    cases task
    simp [flipIf]
  · simp [flipIf, h]

/-- C6: toggling the same id twice gives back the original list (every
`completed` flag and the order are as before), for every list and every id;
and a single toggle keeps every position, negates the `completed` flag of a
task with that id and leaves every other task as it is. -/
theorem toggleTaskComplete_twice (tasks : List Task) (taskId : Int) :
    (toggleTaskComplete tasks taskId >>= fun l => toggleTaskComplete l taskId) = .ok tasks ∧
    ∃ r, toggleTaskComplete tasks taskId = .ok r ∧ r.length = tasks.length ∧
      ∀ i x, tasks.get? i = some x →
        (x.id = taskId → r.get? i = some { x with completed := !x.completed }) ∧
        (x.id ≠ taskId → r.get? i = some x) := by
  refine ⟨?_, tasks.map (flipIf taskId), rfl, by simp, ?_⟩
  · rw [toggleTaskComplete_eq]
    show toggleTaskComplete (tasks.map (flipIf taskId)) taskId = .ok tasks
    rw [toggleTaskComplete_eq, List.map_map]
    have hid : flipIf taskId ∘ flipIf taskId = id := by
      funext x
      exact flipIf_flipIf taskId x
    rw [hid, List.map_id]
  · intro i x hx
    have hget : (tasks.map (flipIf taskId)).get? i = some (flipIf taskId x) := by
      simp [List.get?_eq_getElem?] at hx ⊢
      exact ⟨x, hx, rfl⟩
    constructor
    · intro h
      rw [hget]
      simp [flipIf, h]
    · intro h
      rw [hget]
      simp [flipIf, h]

/-- C7: for a task list with pairwise-distinct ids and an id present in it,
`deleteTask` removes exactly the task with that id: the list splits around
that task, the result is the part before it followed by the part after it
(so later tasks move down by one), the length drops by one and no task with
that id remains. -/
theorem deleteTask_removes_one (tasks : List Task) (taskId : Int)
    (hnd : (tasks.map (fun x => x.id)).Nodup) (hd : ∃ x ∈ tasks, x.id = taskId) :
    ∃ pre x post, tasks = pre ++ x :: post ∧ x.id = taskId ∧
      deleteTask tasks taskId = .ok (pre ++ post) ∧
      (pre ++ post).length + 1 = tasks.length ∧
      ∀ y ∈ pre ++ post, y.id ≠ taskId := by
  obtain ⟨x, hx_mem, hx⟩ := hd
  obtain ⟨pre, post, hl⟩ := List.append_of_mem hx_mem
  subst hl
  subst hx
  rw [List.Nodup, List.pairwise_map] at hnd
  simp only [List.pairwise_append, List.pairwise_cons, List.mem_cons] at hnd
  obtain ⟨-, ⟨hpost, -⟩, hpre⟩ := hnd
  have hpre2 : ∀ y ∈ pre, y.id ≠ x.id := fun y hy => hpre y hy x (Or.inl rfl)
  have hpost2 : ∀ y ∈ post, y.id ≠ x.id := fun y hy => Ne.symm (hpost y hy)
  refine ⟨pre, x, post, rfl, rfl, ?_,
    by simp only [List.length_append, List.length_cons]; omega, ?_⟩
  · have h1 : pre.filter (fun task => decide (task.id ≠ x.id)) = pre :=
      List.filter_eq_self.mpr (fun y hy => by simpa using hpre2 y hy)
    have h2 : post.filter (fun task => decide (task.id ≠ x.id)) = post :=
      List.filter_eq_self.mpr (fun y hy => by simpa using hpost2 y hy)
    simp only [deleteTask, List.filter_append]
    rw [List.filter_cons_of_neg (by simp), h1, h2]
  · intro y hy
    rcases List.mem_append.mp hy with hy | hy
    · exact hpre2 y hy
    · exact hpost2 y hy

/-- Witness for C7: deleting `B` from `[A, B, C, D]`. -/
theorem deleteTask_removes_one_witness :
    deleteTask abcd 2 = .ok [mkTask 1 "A", mkTask 3 "C", mkTask 4 "D"] ∧
    ∃ pre x post, abcd = pre ++ x :: post ∧ x.id = 2 ∧
      deleteTask abcd 2 = .ok (pre ++ post) ∧
      (pre ++ post).length + 1 = abcd.length ∧
      ∀ y ∈ pre ++ post, y.id ≠ 2 :=
  ⟨rfl, deleteTask_removes_one abcd 2 (by decide) ⟨mkTask 2 "B", by simp [abcd], rfl⟩⟩

/-- C8 (counterexample): on `[A, B, C, D]` neither `toggleTaskComplete` nor
`deleteTask` fails for the unknown id `9`; both complete normally. -/
theorem toggle_delete_unknown_not_error :
    (∀ x ∈ abcd, x.id ≠ 9) ∧
    (¬ ∃ e, toggleTaskComplete abcd 9 = .error e) ∧
    (¬ ∃ e, deleteTask abcd 9 = .error e) := by
  refine ⟨by decide, ?_, ?_⟩
  · rintro ⟨e, he⟩
    cases he
  · rintro ⟨e, he⟩
    cases he

/-- C8 (amended): for an id that no task in the list has, `toggleTaskComplete`
and `deleteTask` are silent no-ops: each completes without an error and
leaves the task sequence unchanged. -/
theorem toggle_delete_unknown_noop (tasks : List Task) (taskId : Int)
    (h : ∀ x ∈ tasks, x.id ≠ taskId) :
    toggleTaskComplete tasks taskId = .ok tasks ∧ deleteTask tasks taskId = .ok tasks := by
  constructor
  · rw [toggleTaskComplete_eq]
    have hmap : tasks.map (flipIf taskId) = tasks.map id :=
      List.map_congr_left (fun x hx => by simp [flipIf, h x hx])
    rw [hmap, List.map_id]
  · have hf : tasks.filter (fun task => decide (task.id ≠ taskId)) = tasks :=
      List.filter_eq_self.mpr (fun y hy => by simpa using h y hy)
    simp only [deleteTask, hf]

/-- Witness for C8 (amended): the unknown id `9` on `[A, B, C, D]`. -/
theorem toggle_delete_unknown_noop_witness :
    toggleTaskComplete abcd 9 = .ok abcd ∧ deleteTask abcd 9 = .ok abcd :=
  toggle_delete_unknown_noop abcd 9 (by decide)

/-! ## Id uniqueness: claim C9 -/

/-- C9 (counterexample): a submit at the millisecond `1700000000000`, on a
list that already holds a task with that id, produces two tasks with the
same id. -/
theorem handleSubmit_duplicates_id :
    (sameMsState.tasks.map (fun x => x.id)).Nodup ∧
    ∃ s1, handleSubmit sameMsState 1700000000000 "" = .ok s1 ∧
      s1.tasks.map (fun x => x.id) = [1700000000000, 1700000000000] ∧
      ¬ (s1.tasks.map (fun x => x.id)).Nodup :=
  ⟨by decide, _, rfl, rfl, by decide⟩

theorem flipIf_id (taskId : Int) (task : Task) : (flipIf taskId task).id = task.id := by
  by_cases h : task.id = taskId
  · simp [flipIf, h]
  · simp [flipIf, h]

/-- C9 (amended): starting from a task list with pairwise-distinct ids,
`toggleTaskComplete`, `deleteTask` and `handleDrop` each complete with a list
whose ids are again pairwise distinct, and so does `handleSubmit` whenever
the current time in milliseconds differs from the id of every task in the
list (the handler assigns `Date.now()` without comparing it with the ids in
use). -/
theorem handlers_preserve_distinct_ids (tasks : List Task)
    (hnd : (tasks.map (fun x => x.id)).Nodup) :
    (∀ taskId, ∃ r, toggleTaskComplete tasks taskId = .ok r ∧
      (r.map (fun x => x.id)).Nodup) ∧
    (∀ taskId, ∃ r, deleteTask tasks taskId = .ok r ∧ (r.map (fun x => x.id)).Nodup) ∧
    (∀ dr t, ∃ r, handleDrop tasks dr t = .ok r ∧ (r.map (fun x => x.id)).Nodup) ∧
    (∀ input ty now iso, (∀ x ∈ tasks, x.id ≠ now) →
      ∃ s1, handleSubmit { tasks := tasks, taskInput := input, taskType := ty } now iso
          = .ok s1 ∧ (s1.tasks.map (fun x => x.id)).Nodup) := by
  refine ⟨?_, ?_, ?_, ?_⟩
  · intro taskId
    refine ⟨_, toggleTaskComplete_eq tasks taskId, ?_⟩
    have hmap : (tasks.map (flipIf taskId)).map (fun x => x.id) = tasks.map (fun x => x.id) := by
      rw [List.map_map]
      exact List.map_congr_left (fun x _ => flipIf_id taskId x)
    rw [hmap]
    exact hnd
  · intro taskId
    refine ⟨_, rfl, ?_⟩
    exact hnd.sublist ((List.filter_sublist tasks).map _)
  · intro dr t
    obtain ⟨r, hr, hperm⟩ := handleDrop_perm tasks dr t
    exact ⟨r, hr, (hperm.map _).nodup_iff.mpr hnd⟩
  · intro input ty now iso hnow
    by_cases ht : strTruthy (jsTrim input) = true
    · refine ⟨_, by simp only [handleSubmit, ht, if_true]; rfl, ?_⟩
      simp only [List.map_append, List.map_cons, List.map_nil]
      rw [List.nodup_append]
      refine ⟨hnd, List.nodup_singleton _, ?_⟩
      intro a ha hb
      simp only [List.mem_singleton] at hb
      obtain ⟨x, hx, hxa⟩ := List.mem_map.mp ha
      exact hnow x hx (hxa.trans hb)
    · refine ⟨_, by simp only [handleSubmit, ht]; rfl, hnd⟩

/-- Witness for C9 (amended) on `[A, B, C, D]`. -/
theorem handlers_preserve_distinct_ids_witness :
    (abcd.map (fun x => x.id)).Nodup ∧
    (∃ r, handleDrop abcd (some 4) 1 = .ok r ∧ (r.map (fun x => x.id)).Nodup) ∧
    (∃ s1, handleSubmit { tasks := abcd, taskInput := "E", taskType := "study" } 5 ""
        = .ok s1 ∧ (s1.tasks.map (fun x => x.id)).Nodup) :=
  ⟨by decide,
   (handlers_preserve_distinct_ids abcd (by decide)).2.2.1 (some 4) 1,
   (handlers_preserve_distinct_ids abcd (by decide)).2.2.2 "E" "study" 5 "" (by decide)⟩

/-! ## Completion statistics: claim C10 -/

/-- C10: the statistics are the number of tasks with `completed = true` and
the length of the list; on the empty list they are `(0, 0)` and the
percentage is `0`; and for every list, whatever the rounding of the double
arithmetic, the percentage is a finite number: the division is only carried
out with a non-zero divisor, so `0/0` never occurs (the bare quotient is
finite exactly on the non-empty lists, which is what the guard tests). -/
theorem completion_stats_safe (rnd : ℚ → ℚ) (tasks : List Task) :
    completionStats tasks = (tasks.countP (fun x => x.completed), tasks.length) ∧
    completionStats [] = (0, 0) ∧
    completionPercentage rnd [] = some 0 ∧
    ((∃ q, jsDiv rnd (completedTasks tasks) tasks.length = some q) ↔ tasks ≠ []) ∧
    ∃ q, completionPercentage rnd tasks = some q := by
  refine ⟨?_, rfl, rfl, ?_, ?_⟩
  · simp [completionStats, completedTasks, List.countP_eq_length_filter]
  · cases tasks with
    | nil => simp [jsDiv]
    | cons x xs => simp [jsDiv]
  · cases tasks with
    | nil => exact ⟨0, rfl⟩
    | cons x xs =>
      have hlen : (x :: xs).length ≠ 0 := by simp
      refine ⟨jsMul rnd (rnd ((completedTasks (x :: xs) : ℚ) / ((x :: xs).length : ℚ))) 100,
        ?_⟩
      simp only [completionPercentage, jsDiv, hlen, if_false, Option.map_some']
      simp

/-! ## Position of the dragged task: claim C12 -/

theorem get?_append_length {α : Type} (pre : List α) (x : α) (post : List α) :
    (pre ++ x :: post).get? pre.length = some x := by
  induction pre with
  | nil => rfl
  | cons y ys ih => simpa using ih

/-- With pairwise-distinct ids, `findIndex` on an id finds the one task that
has it. -/
theorem findIndex_id_of_nodup (pre : List Task) (x : Task) (post : List Task)
    (hnd : ((pre ++ x :: post).map (fun y => y.id)).Nodup) :
    findIndex (fun task => decide (task.id = x.id)) (pre ++ x :: post) = some pre.length := by
  rw [List.Nodup, List.pairwise_map] at hnd
  simp only [List.pairwise_append, List.pairwise_cons, List.mem_cons] at hnd
  obtain ⟨-, -, hpre⟩ := hnd
  exact findIndex_append_first _ pre x post
    (fun y hy => by simpa using hpre y hy x (Or.inl rfl)) (by simp)

/-- C12: for a task list with pairwise-distinct ids and two distinct present
ids `d ≠ 0` and `t`, after `handleDrop` the dragged task sits at the index
`j` that the target had in the list before the drop; when the dragged task
was before the target (`i < j`) the target is now at `j - 1`, so the dragged
task is immediately after it, and when it was after the target (`j < i`) the
target is now at `j + 1`, so the dragged task is immediately before it. -/
theorem handleDrop_takes_target_index (tasks : List Task) (d t : Int)
    (hnd : (tasks.map (fun x => x.id)).Nodup) (hd0 : d ≠ 0) (hdt : d ≠ t)
    (hd : ∃ x ∈ tasks, x.id = d) (ht : ∃ x ∈ tasks, x.id = t) :
    ∃ r i j a b, handleDrop tasks (some d) t = .ok r ∧
      findIndex (fun task => decide (task.id = d)) tasks = some i ∧
      findIndex (fun task => decide (task.id = t)) tasks = some j ∧
      tasks.get? i = some a ∧ a.id = d ∧
      tasks.get? j = some b ∧ b.id = t ∧
      r.get? j = some a ∧
      (i < j → r.get? (j - 1) = some b) ∧
      (j < i → r.get? (j + 1) = some b) := by
  obtain ⟨a, ha_mem, ha⟩ := hd
  obtain ⟨b, hb_mem, hb⟩ := ht
  obtain ⟨l1, l2, hl⟩ := List.append_of_mem ha_mem
  subst hl
  subst ha
  subst hb
  simp only [List.mem_append, List.mem_cons] at hb_mem
  rcases hb_mem with hb1 | rfl | hb2
  · obtain ⟨p, m, hl1⟩ := List.append_of_mem hb1
    subst hl1
    have hl : (p ++ b :: m) ++ a :: l2 = p ++ b :: (m ++ a :: l2) := by simp
    have hi := findIndex_id_of_nodup (p ++ b :: m) a l2 hnd
    have hga := get?_append_length (p ++ b :: m) a l2
    rw [hl] at hnd hi hga ⊢
    have hj := findIndex_id_of_nodup p b (m ++ a :: l2) hnd
    refine ⟨p ++ a :: b :: (m ++ l2), (p ++ b :: m).length, p.length, a, b,
      handleDrop_backward p b m a l2 hnd hd0, hi, hj, hga, rfl,
      get?_append_length p b (m ++ a :: l2), rfl,
      get?_append_length p a (b :: (m ++ l2)), ?_, ?_⟩
    · intro hlt
      simp only [List.length_append, List.length_cons] at hlt
      omega
    · intro _
      have h := get?_append_length (p ++ [a]) b (m ++ l2)
      simpa using h
  · exact absurd rfl hdt
  · obtain ⟨m, s, hl2⟩ := List.append_of_mem hb2
    subst hl2
    have hl : l1 ++ a :: (m ++ b :: s) = (l1 ++ a :: m) ++ b :: s := by simp
    have hi := findIndex_id_of_nodup l1 a (m ++ b :: s) hnd
    have hj : findIndex (fun task => decide (task.id = b.id)) (l1 ++ a :: (m ++ b :: s))
        = some (l1 ++ a :: m).length := by
      have h := findIndex_id_of_nodup (l1 ++ a :: m) b s (by rw [← hl]; exact hnd)
      rw [← hl] at h
      exact h
    have hgb : (l1 ++ a :: (m ++ b :: s)).get? (l1 ++ a :: m).length = some b := by
      rw [hl]
      exact get?_append_length (l1 ++ a :: m) b s
    refine ⟨l1 ++ (m ++ b :: a :: s), l1.length, (l1 ++ a :: m).length, a, b,
      handleDrop_forward l1 a m b s hnd hd0, hi, hj,
      get?_append_length l1 a (m ++ b :: s), rfl, hgb, rfl, ?_, ?_, ?_⟩
    · have h := get?_append_length (l1 ++ (m ++ [b])) a s
      simp only [List.length_append, List.length_cons, List.length_nil, List.append_assoc,
        List.singleton_append] at h ⊢
      rw [show l1.length + (m.length + 1) = l1.length + (m.length + (0 + 1)) by omega]
      exact h
    · intro _
      have h := get?_append_length (l1 ++ m) b (a :: s)
      simp only [List.length_append, List.length_cons, List.append_assoc] at h ⊢
      rw [show l1.length + (m.length + 1) - 1 = l1.length + m.length by omega]
      exact h
    · intro hlt
      simp only [List.length_append, List.length_cons] at hlt
      omega

/-- Witness for C12 on `[A, B, C, D]` with `d = 1`, `t = 3`: `A` ends up at
index 2, right after `C`. -/
theorem handleDrop_takes_target_index_witness :
    (handleDrop abcd (some 1) 3 =
      .ok [mkTask 2 "B", mkTask 3 "C", mkTask 1 "A", mkTask 4 "D"]) ∧
    ∃ r i j a b, handleDrop abcd (some 1) 3 = .ok r ∧
      findIndex (fun task => decide (task.id = 1)) abcd = some i ∧
      findIndex (fun task => decide (task.id = 3)) abcd = some j ∧
      abcd.get? i = some a ∧ a.id = 1 ∧
      abcd.get? j = some b ∧ b.id = 3 ∧
      r.get? j = some a ∧
      (i < j → r.get? (j - 1) = some b) ∧
      (j < i → r.get? (j + 1) = some b) :=
  ⟨rfl, handleDrop_takes_target_index abcd 1 3 (by decide) (by decide) (by decide)
    ⟨mkTask 1 "A", by simp [abcd], rfl⟩ ⟨mkTask 3 "C", by simp [abcd], rfl⟩⟩

/-! ## Load: claim C11 -/

/-- C11 (what the code does): with nothing stored, or with the empty string
stored, the initial-state function returns the empty list; with any other
stored payload that `JSON.parse` rejects, the error thrown by `JSON.parse`
leaves the function instead of the empty list being returned. -/
theorem loadTasks_parse_error_escapes (jsonParse : String → Except JsError (List Task))
    (payload : String) (e : JsError) (hne : payload ≠ "")
    (hparse : jsonParse payload = .error e) :
    loadTasks jsonParse none = .ok [] ∧
    loadTasks jsonParse (some "") = .ok [] ∧
    loadTasks jsonParse (some payload) = .error e ∧
    loadTasks jsonParse (some payload) ≠ .ok [] := by
  have ht : strTruthy payload = true := by
    cases payload with
    | mk data =>
      cases data with
      | nil => exact absurd rfl hne
      | cons c cs => rfl
  have hload : loadTasks jsonParse (some payload) = .error e := by
    simp only [loadTasks, ht, if_true, hparse]
  refine ⟨rfl, rfl, hload, ?_⟩
  rw [hload]
  intro h
  cases h

/-- Witness for C11: the stored payload `not json`. -/
theorem loadTasks_parse_error_escapes_witness :
    loadTasks parseEmptyArrayOnly none = .ok [] ∧
    loadTasks parseEmptyArrayOnly (some "") = .ok [] ∧
    loadTasks parseEmptyArrayOnly (some "not json") = .error ⟨"SyntaxError"⟩ ∧
    loadTasks parseEmptyArrayOnly (some "not json") ≠ .ok [] :=
  loadTasks_parse_error_escapes parseEmptyArrayOnly "not json" ⟨"SyntaxError"⟩
    (by decide) (by rfl)

end ZendyApp
